import Mathlib

/-!
# Verification of the ci-tools ingestion pipeline and auxiliary commands

Shallow embedding of three parts of the repository:

* `Pipeline`: the ordered, concurrency-bounded ingestion pipeline of package
  jobrunbigqueryloader (`jobLoaderOptions.Run` and `jobRunLoaderOptions.Run`),
  modelled as a small-step transition system over the per-run goroutines
  ("slots"), their chained completion gates (`doneUploading` channels), the
  weighted-semaphore tokens and the BigQuery sink.
* `Checkpoint`: the resume-point computation at the start of
  `jobLoaderOptions.Run`.
* `Pool`: the fixed worker pool of `allJobsLoaderOptions.Run` /
  `allJobsLoaderOptions.processJobs` and its error aggregation.
* `YamlCreator`: the `process` closure of cmd/ci-operator-yaml-creator,
  with its `clonesDone` push ceiling.
* `GroupCreator`: `UpsertGroup` of the github-ldap-user-group-creator,
  against a fault-free single-name view of the cluster.
-/

set_option autoImplicit false

namespace Pipeline

/-- Outcome of `jobRunLoaderOptions.readJobRunFromGCS` for one run:
`ready` means prowjob.json exists, has a `CompletionTime` and all content is
readable (a `JobRunInfo` is returned); `notReady` means no completion time
(nil, nil is returned); `absent` means no prowjob.json (nil, nil); and
`fetchError` means a read, parse or content failure (nil, err). -/
inductive FetchOutcome
  | ready
  | notReady
  | absent
  | fetchError
deriving DecidableEq

/-- The non-nil error classes `jobRunLoaderOptions.Run` can return:
`fetchErr` when `readJobRunFromGCS` errored, `commitErr` when
`uploadJobRun` (the `Put` to the inserter or `uploadContent`) errored. -/
inductive SlotErr
  | fetchErr
  | commitErr
deriving DecidableEq

/-- Control position of one per-run goroutine (`jobRunLoaderOptions.Run`
together with the spawning loop of `jobLoaderOptions.Run`):
`notStarted` = the loop has not yet acquired a token and spawned it;
`fetching` = inside `readJobRunFromGCS`;
`waitGate` = the fetch returned ready, blocked at the
`select readyToUpload / ctx.Done` statement;
`done` = `Run` returned and the deferred `close(doneUploading)` ran. -/
inductive Phase
  | notStarted
  | fetching
  | waitGate
  | done
deriving DecidableEq

/-- Static data of one job pipeline: `k` enumerated runs (slot `i` handles
the `i`-th identifier `runID i` delivered by `ListJobRunNamesOlderThanFourHours`),
the fetch outcome and commit result of each run, and the semaphore weight
`N` (`numberOfConcurrentReaders`). -/
structure PipelineCfg where
  k : Nat
  runID : Nat → Nat
  fetch : Nat → FetchOutcome
  commitOK : Nat → Bool
  N : Nat

/-- Dynamic state of one job pipeline: per-slot phase, per-slot completion
gate (`doneUploading` closed?), per-slot semaphore token held, the ordered
log of run identifiers `Put` to the sink, the per-slot `Run` return value
(`none` while running, `some none` for a nil return, `some (some e)` for an
error), and the shared-context cancellation flag. -/
structure PState where
  phase : Nat → Phase
  gateClosed : Nat → Bool
  tokenHeld : Nat → Bool
  sink : List Nat
  result : Nat → Option (Option SlotErr)
  cancelled : Bool

/-- Pointwise function update at one index. -/
def updFn {α : Type} (f : Nat → α) (i : Nat) (x : α) : Nat → α :=
  fun j => if j = i then x else f j

/-- Initial state: no slot spawned, no gate closed, no token held, empty
sink, context live. -/
def initState : PState where
  phase := fun _ => Phase.notStarted
  gateClosed := fun _ => false
  tokenHeld := fun _ => false
  sink := []
  result := fun _ => none
  cancelled := false

/-- A slot is active while its goroutine is running (between the semaphore
acquire and the return of `Run`). -/
def isActive : Phase → Bool
  | Phase.fetching => true
  | Phase.waitGate => true
  | _ => false

/-- Number of active slots among the first `k`. -/
def activeCount (k : Nat) (ph : Nat → Phase) : Nat :=
  ((Finset.range k).filter (fun i => isActive (ph i) = true)).card

/-- Number of slots currently inside `readJobRunFromGCS`. -/
def fetchingCount (k : Nat) (ph : Nat → Phase) : Nat :=
  ((Finset.range k).filter (fun i => ph i = Phase.fetching)).card

/-- Number of semaphore tokens currently held. -/
def heldCount (k : Nat) (s : PState) : Nat :=
  ((Finset.range k).filter (fun i => s.tokenHeld i = true)).card

/-- Slot `i`'s `readyToUpload` channel is closed: slot `0` received the
pre-closed `lastDoneUploadingCh`, slot `i+1` received slot `i`'s
`doneUploading`. -/
def predGateClosed (s : PState) : Nat → Bool
  | 0 => true
  | i + 1 => s.gateClosed i

/-- The spawning loop acquires one token and starts slot `i`'s goroutine. -/
def spawnSlot (s : PState) (i : Nat) : PState :=
  { s with
    phase := updFn s.phase i Phase.fetching
    tokenHeld := updFn s.tokenHeld i true }

/-- Slot `i`'s fetch returned ready; it now blocks on the select. -/
def waitSlot (s : PState) (i : Nat) : PState :=
  { s with phase := updFn s.phase i Phase.waitGate }

/-- Slot `i`'s `Run` returns with value `r`: the deferred
`close(doneUploading)` runs, the goroutine exits and its deferred
`concurrentWorkers.Release(1)` frees the token; the sink log becomes `ns`. -/
def finishSlot (s : PState) (i : Nat) (r : Option SlotErr) (ns : List Nat) : PState :=
  { s with
    phase := updFn s.phase i Phase.done
    gateClosed := updFn s.gateClosed i true
    tokenHeld := updFn s.tokenHeld i false
    result := updFn s.result i (some r)
    sink := ns }

/-- The shared context is cancelled. -/
def setCancelled (s : PState) : PState := { s with cancelled := true }

/-- One scheduler step of the per-job pipeline, mirroring the concurrent
execution of `jobLoaderOptions.Run` (the spawning loop) and the slot
goroutines `jobRunLoaderOptions.Run`. Slots are spawned in enumeration
order, each spawn consuming one of the `N` semaphore tokens; a slot whose
fetch is ready must see its predecessor gate closed (or be slot `0`) before
it writes; every exit path of a slot closes its own gate and releases its
token; the `select` also exits with a nil result once the context is
cancelled. -/
inductive Step (cfg : PipelineCfg) : PState → PState → Prop
  | spawn (s : PState) (i : Nat)
      (hik : i < cfg.k)
      (hns : s.phase i = Phase.notStarted)
      (hprev : ∀ j, j < i → s.phase j ≠ Phase.notStarted)
      (hcap : activeCount cfg.k s.phase < cfg.N) :
      Step cfg s (spawnSlot s i)
  | fetchReady (s : PState) (i : Nat)
      (hik : i < cfg.k)
      (hf : s.phase i = Phase.fetching)
      (hr : cfg.fetch i = FetchOutcome.ready) :
      Step cfg s (waitSlot s i)
  | fetchSkip (s : PState) (i : Nat)
      (hik : i < cfg.k)
      (hf : s.phase i = Phase.fetching)
      (hr : cfg.fetch i = FetchOutcome.notReady ∨ cfg.fetch i = FetchOutcome.absent) :
      Step cfg s (finishSlot s i none s.sink)
  | fetchFail (s : PState) (i : Nat)
      (hik : i < cfg.k)
      (hf : s.phase i = Phase.fetching)
      (hr : cfg.fetch i = FetchOutcome.fetchError) :
      Step cfg s (finishSlot s i (some SlotErr.fetchErr) s.sink)
  | commitPut (s : PState) (i : Nat)
      (hik : i < cfg.k)
      (hw : s.phase i = Phase.waitGate)
      (hg : predGateClosed s i = true)
      (hc : cfg.commitOK i = true) :
      Step cfg s (finishSlot s i none (s.sink ++ [cfg.runID i]))
  | commitFail (s : PState) (i : Nat)
      (hik : i < cfg.k)
      (hw : s.phase i = Phase.waitGate)
      (hg : predGateClosed s i = true)
      (hc : cfg.commitOK i = false) :
      Step cfg s (finishSlot s i (some SlotErr.commitErr) s.sink)
  | cancelCtx (s : PState)
      (h : s.cancelled = false) :
      Step cfg s (setCancelled s)
  | cancelWait (s : PState) (i : Nat)
      (hik : i < cfg.k)
      (hw : s.phase i = Phase.waitGate)
      (hcan : s.cancelled = true) :
      Step cfg s (finishSlot s i none s.sink)

/-- States reachable from the initial state by scheduler steps. -/
def Reachable (cfg : PipelineCfg) (s : PState) : Prop :=
  Relation.ReflTransGen (Step cfg) initState s

/-- The value `newJobBigQueryLoaderOptions` assigns to the per-job
`numberOfConcurrentReaders` field. -/
def numberOfConcurrentReaders : Nat := 20

/-- Weight of a phase, used as a termination measure: every slot transition
strictly decreases its slot's weight. -/
def phaseWeight : Phase → Nat
  | Phase.notStarted => 3
  | Phase.fetching => 2
  | Phase.waitGate => 1
  | Phase.done => 0

/-- Total progress measure of a pipeline state. -/
def pipeMeasure (cfg : PipelineCfg) (s : PState) : Nat :=
  Finset.sum (Finset.range cfg.k) (fun i => phaseWeight (s.phase i))

/-- The global invariant of the pipeline, proved for all reachable states:
gate closed iff slot finished, token held iff goroutine active, slots are
spawned in enumeration order, at most `N` goroutines active, the sink only
holds records of ready runs whose `Put` succeeded, a slot blocks at the
select only when its fetch was ready, a slot has a recorded return value
iff it finished, and skipped (not-ready or absent) runs only ever return
nil. -/
structure Inv (cfg : PipelineCfg) (s : PState) : Prop where
  gate_done : ∀ i, s.gateClosed i = true ↔ s.phase i = Phase.done
  token_active : ∀ i, s.tokenHeld i = true ↔ isActive (s.phase i) = true
  spawn_order : ∀ i j, i ≤ j → s.phase j ≠ Phase.notStarted → s.phase i ≠ Phase.notStarted
  active_le : activeCount cfg.k s.phase ≤ cfg.N
  sink_ready : ∀ r, r ∈ s.sink →
    ∃ i, i < cfg.k ∧ r = cfg.runID i ∧ cfg.fetch i = FetchOutcome.ready ∧ cfg.commitOK i = true
  wait_ready : ∀ i, s.phase i = Phase.waitGate → cfg.fetch i = FetchOutcome.ready
  result_done : ∀ i, (s.result i).isSome = true ↔ s.phase i = Phase.done
  skip_nil : ∀ i, (cfg.fetch i = FetchOutcome.notReady ∨ cfg.fetch i = FetchOutcome.absent) →
    s.result i = none ∨ s.result i = some none

/-- The conditional invariant behind the ordering theorem: when every fetch
is ready and every commit succeeds, the finished slots always form a prefix
`0..m-1` of the enumeration and the sink holds exactly their run
identifiers, in enumeration order. -/
def OrderedInv (cfg : PipelineCfg) (s : PState) : Prop :=
  ∃ m, m ≤ cfg.k ∧ (∀ i, i < cfg.k → (s.phase i = Phase.done ↔ i < m)) ∧
    s.sink = (List.range m).map cfg.runID

end Pipeline

namespace Checkpoint

/-- Modelled from the spec: `NextJobRunID` (package jobrunaggregatorlib, not
under src/) maps a run identifier to its successor in the totally ordered
identifier space. Identifiers are modelled as naturals, the successor as
`+ 1`. -/
def NextJobRunID (runID : Nat) : Nat := runID + 1

/-- From `jobLoaderOptions.Run`: the resume point is the origin sentinel
`"0"` when `getLastJobRunWithDataFn` found no recorded run, and otherwise
the successor of the latest recorded run's identifier. -/
def startingJobRunID (lastJobRun : Option Nat) : Nat :=
  match lastJobRun with
  | none => 0
  | some lastName => NextJobRunID lastName

/-- Modelled from the spec: the run enumerator
(`ListJobRunNamesOlderThanFourHours`, a GCS-client capability not under
src/) yields only identifiers at or after the resume point it is seeded
with, in ascending order; this contract only constrains membership. -/
def EnumeratorContract (startingID : Nat) (ids : List Nat) : Prop :=
  ∀ r, r ∈ ids → startingID ≤ r

end Checkpoint

namespace Pool

/-- One job as seen by a pool worker: whether
`shouldCollectedDataForJobFn job` holds, and the result of
`jobLoader.Run` for it (`none` = success, `some e` = the per-job error,
abstracted as a natural). -/
structure JobRow where
  shouldCollect : Bool
  runErr : Option Nat
deriving DecidableEq

/-- The error (if any) one iteration of the worker loop in
`allJobsLoaderOptions.processJobs` sends to `errChan` for this job:
jobs failing the collection predicate are skipped silently, otherwise the
result of `jobLoader.Run` is forwarded when non-nil. -/
def jobErrOut (j : JobRow) : Option Nat :=
  if j.shouldCollect then j.runErr else none

/-- One worker of `allJobsLoaderOptions.processJobs`, draining its share of
the closed `jobChan` sequentially: a failing job's error is appended and
the worker continues with the next job. -/
def processJobs (jobs : List JobRow) : List Nat :=
  jobs.foldl
    (fun errs j =>
      match jobErrOut j with
      | some e => errs ++ [e]
      | none => errs)
    []

/-- The fixed number of workers launched by `allJobsLoaderOptions.Run`
(the literal bound of its spawning loop). -/
def poolWorkerCount : Nat := 20

/-- An execution of the pool is recorded as the closed job queue with, for
each job, the worker that received it from `jobChan`; `jobsOf w l` is the
subsequence worker `w` processed, in queue order. -/
def jobsOf (w : Fin poolWorkerCount) (l : List (JobRow × Fin poolWorkerCount)) : List JobRow :=
  (l.filter (fun p => decide (p.2 = w))).map Prod.fst

/-- The multiset of errors drained from `errChan` by `allJobsLoaderOptions.Run`
after `wg.Wait()`: the errors of all workers, in no particular order. -/
def poolErrors (l : List (JobRow × Fin poolWorkerCount)) : Multiset Nat :=
  Finset.sum Finset.univ (fun w => ((processJobs (jobsOf w l) : List Nat) : Multiset Nat))

/-- `utilerrors.NewAggregate`: nil for an empty error list, otherwise an
aggregate holding exactly the given errors. -/
def NewAggregate (errs : Multiset Nat) : Option (Multiset Nat) :=
  if errs = 0 then none else some errs

end Pool

namespace YamlCreator

/-- The facts about one ci-operator configuration (plus the injected
collaborators' behavior on it) that determine the control flow of one
invocation of the closure returned by `process`, in source order. -/
structure CfgInfo where
  passesFilter : Bool
  hasBuildRootImage : Bool
  fromRepository : Bool
  variantEmpty : Bool
  branchIsMasterOrMain : Bool
  hasImageStreamTagReference : Bool
  getterOK : Bool
  unmarshalOK : Bool
  inrepoMatchesExpected : Bool
  marshalCfgOK : Bool
  writeFileOK : Bool
  marshalExpectedOK : Bool
  cloneOK : Bool
  checkoutOK : Bool
  writeRepoFileOK : Bool
  createPrOK : Bool

/-- The error classes the `process` closure can return. -/
inductive ProcErr
  | getFile
  | unmarshal
  | marshalCfg
  | writeFile
  | marshalExpected
  | clone
  | checkout
  | writeRepoFile
  | createPr
deriving DecidableEq

/-- Result of one invocation of the `process` closure: the guarded
`clonesDone` counter afterwards, whether a clone was performed, and the
returned error. -/
structure StepOut where
  clonesDone : Nat
  cloned : Bool
  res : Option ProcErr
deriving DecidableEq

/-- One invocation of the closure returned by `process`
(cmd/ci-operator-yaml-creator/main.go), with `clonesDone` passed explicitly
in place of the captured mutable counter. Mirrors the source's branch
order: filter, build-root/variant/branch eligibility, image-stream-tag
presence, in-repo file fetch, unmarshal, the diff-empty rewrite-in-place
branch, expected-config marshalling, the push-ceiling guard, and the
clone/checkout/write/PR sequence (the counter is incremented before the
clone is attempted). -/
def processOne (pushCeiling : Nat) (clonesDone : Nat) (c : CfgInfo) : StepOut :=
  if c.passesFilter = false then
    { clonesDone := clonesDone, cloned := false, res := none }
  else if c.hasBuildRootImage = false ∨ c.fromRepository = true ∨ c.variantEmpty = false ∨
      c.branchIsMasterOrMain = false then
    { clonesDone := clonesDone, cloned := false, res := none }
  else if c.hasImageStreamTagReference = false then
    { clonesDone := clonesDone, cloned := false, res := none }
  else if c.getterOK = false then
    { clonesDone := clonesDone, cloned := false, res := some ProcErr.getFile }
  else if c.unmarshalOK = false then
    { clonesDone := clonesDone, cloned := false, res := some ProcErr.unmarshal }
  else if c.inrepoMatchesExpected = true then
    if c.marshalCfgOK = false then
      { clonesDone := clonesDone, cloned := false, res := some ProcErr.marshalCfg }
    else if c.writeFileOK = false then
      { clonesDone := clonesDone, cloned := false, res := some ProcErr.writeFile }
    else
      { clonesDone := clonesDone, cloned := false, res := none }
  else if c.marshalExpectedOK = false then
    { clonesDone := clonesDone, cloned := false, res := some ProcErr.marshalExpected }
  else if 0 < pushCeiling ∧ pushCeiling ≤ clonesDone then
    { clonesDone := clonesDone, cloned := false, res := none }
  else if c.cloneOK = false then
    { clonesDone := clonesDone + 1, cloned := true, res := some ProcErr.clone }
  else if c.checkoutOK = false then
    { clonesDone := clonesDone + 1, cloned := true, res := some ProcErr.checkout }
  else if c.writeRepoFileOK = false then
    { clonesDone := clonesDone + 1, cloned := true, res := some ProcErr.writeRepoFile }
  else if c.createPrOK = false then
    { clonesDone := clonesDone + 1, cloned := true, res := some ProcErr.createPr }
  else
    { clonesDone := clonesDone + 1, cloned := true, res := none }

/-- A configuration reaches the clone point of `process` (so that, absent
the ceiling, a clone would be performed). -/
def needsClone (c : CfgInfo) : Bool :=
  c.passesFilter && c.hasBuildRootImage && !c.fromRepository && c.variantEmpty &&
  c.branchIsMasterOrMain && c.hasImageStreamTagReference && c.getterOK &&
  c.unmarshalOK && !c.inrepoMatchesExpected && c.marshalExpectedOK

/-- Feeding a sequence of configurations to the `process` closure:
returns the final `clonesDone`, the number of clones performed, and the
per-configuration results. -/
def processList (pushCeiling : Nat) (clonesDone : Nat) : List CfgInfo → Nat × Nat × List (Option ProcErr)
  | [] => (clonesDone, 0, [])
  | c :: rest =>
    let o := processOne pushCeiling clonesDone c
    let r := processList pushCeiling o.clonesDone rest
    (r.1, (if o.cloned then 1 else 0) + r.2.1, o.res :: r.2.2)

end YamlCreator

namespace GroupCreator

/-- An OpenShift user group as manipulated by `UpsertGroup`: its name and
its `Users` list. -/
structure Group where
  name : String
  users : List String
deriving DecidableEq

/-- The mutating cluster operations `UpsertGroup` can issue. -/
inductive ClusterOp
  | create (g : Group)
  | delete (name : String)
deriving DecidableEq

/-- Result of one `UpsertGroup` call: the cluster's group of that name
afterwards, the mutations issued, and the returned `(created, err)` pair. -/
structure UpsertOut where
  state : Option Group
  mutations : List ClusterOp
  created : Bool
  err : Option String
deriving DecidableEq

/-- `UpsertGroup` (github-ldap-user-group-creator), run against a
fault-free client restricted to the one group name involved: `existing` is
the cluster's group of that name. `Create` succeeds exactly when no such
group exists (otherwise it reports AlreadyExists), `Get` then returns the
existing group, and when `equality.Semantic.DeepEqual` finds the `Users`
equal the function returns `(false, nil)` with no mutation; otherwise it
deletes and recreates. -/
def UpsertGroup (existing : Option Group) (g : Group) : UpsertOut :=
  match existing with
  | none =>
    { state := some g, mutations := [ClusterOp.create g], created := true, err := none }
  | some ex =>
    if g.users = ex.users then
      { state := some ex, mutations := [], created := false, err := none }
    else
      { state := some g
        mutations := [ClusterOp.delete ex.name, ClusterOp.create g]
        created := false
        err := none }

end GroupCreator

namespace Pipeline

/-- A 2-run job where both fetches are ready and both commits succeed. -/
def cfgA : PipelineCfg where
  k := 2
  runID := fun i => i
  fetch := fun _ => FetchOutcome.ready
  commitOK := fun _ => true
  N := 2

/-- Trace states for `cfgA`: spawn slot 0, its fetch returns ready, its
commit runs, then the same for slot 1. -/
def a1 : PState := spawnSlot initState 0

def a2 : PState := waitSlot a1 0

def a3 : PState := finishSlot a2 0 none (a2.sink ++ [cfgA.runID 0])

def a4 : PState := spawnSlot a3 1

def a5 : PState := waitSlot a4 1

def a6 : PState := finishSlot a5 1 none (a5.sink ++ [cfgA.runID 1])

/-- A 1-run job, ready fetch, successful commit, semaphore weight 1. -/
def cfgB : PipelineCfg where
  k := 1
  runID := fun i => i
  fetch := fun _ => FetchOutcome.ready
  commitOK := fun _ => true
  N := 1

/-- Trace states for `cfgB`: slot 0 spawned, fetch ready, then the shared
context cancelled while it blocks on the select, then the select takes the
`ctx.Done` branch. -/
def b1 : PState := spawnSlot initState 0

def b2 : PState := waitSlot b1 0

def b3 : PState := setCancelled b2

def b4 : PState := finishSlot b3 0 none b3.sink

/-- A 2-run job whose first run is absent (no prowjob.json) and whose
second run is ready. -/
def cfgC : PipelineCfg where
  k := 2
  runID := fun i => i + 6
  fetch := fun i => if i = 0 then FetchOutcome.absent else FetchOutcome.ready
  commitOK := fun _ => true
  N := 2

/-- Trace states for `cfgC`: both slots spawned, slot 0 skips (closing its
gate), slot 1's fetch returns ready. -/
def d1 : PState := spawnSlot initState 0

def d2 : PState := spawnSlot d1 1

def d3 : PState := finishSlot d2 0 none d2.sink

def d4 : PState := waitSlot d3 1

end Pipeline

namespace Pool

/-- A concrete pool execution: three jobs, two assigned to worker 0 and one
to worker 1; the first fails with error 7, the second succeeds, the third
has `shouldCollect = false` (skipped) despite a non-nil run error. -/
def poolL : List (JobRow × Fin poolWorkerCount) :=
  [({ shouldCollect := true, runErr := some 7 }, ⟨0, by decide⟩),
   ({ shouldCollect := true, runErr := none }, ⟨1, by decide⟩),
   ({ shouldCollect := false, runErr := some 9 }, ⟨0, by decide⟩)]

end Pool

namespace YamlCreator

/-- A configuration whose in-repo `.ci-operator.yaml` already matches. -/
def cMatch : CfgInfo where
  passesFilter := true
  hasBuildRootImage := true
  fromRepository := false
  variantEmpty := true
  branchIsMasterOrMain := true
  hasImageStreamTagReference := true
  getterOK := true
  unmarshalOK := true
  inrepoMatchesExpected := true
  marshalCfgOK := true
  writeFileOK := true
  marshalExpectedOK := true
  cloneOK := true
  checkoutOK := true
  writeRepoFileOK := true
  createPrOK := true

/-- A configuration that needs its `.ci-operator.yaml` updated (reaches the
clone point) and for which every collaborator succeeds. -/
def cClone : CfgInfo := { cMatch with inrepoMatchesExpected := false }

end YamlCreator

namespace GroupCreator

/-- A concrete group. -/
def gSample : Group where
  name := "gh-alice"
  users := ["alice", "akerberos"]

/-- The same name with a different membership. -/
def gOther : Group where
  name := "gh-alice"
  users := ["alice"]

end GroupCreator

namespace Pipeline

@[simp] theorem spawnSlot_phase (s : PState) (i : Nat) :
    (spawnSlot s i).phase = updFn s.phase i Phase.fetching := rfl

@[simp] theorem spawnSlot_gateClosed (s : PState) (i : Nat) :
    (spawnSlot s i).gateClosed = s.gateClosed := rfl

@[simp] theorem spawnSlot_tokenHeld (s : PState) (i : Nat) :
    (spawnSlot s i).tokenHeld = updFn s.tokenHeld i true := rfl

@[simp] theorem spawnSlot_sink (s : PState) (i : Nat) :
    (spawnSlot s i).sink = s.sink := rfl

@[simp] theorem spawnSlot_result (s : PState) (i : Nat) :
    (spawnSlot s i).result = s.result := rfl

@[simp] theorem spawnSlot_cancelled (s : PState) (i : Nat) :
    (spawnSlot s i).cancelled = s.cancelled := rfl

@[simp] theorem waitSlot_phase (s : PState) (i : Nat) :
    (waitSlot s i).phase = updFn s.phase i Phase.waitGate := rfl

@[simp] theorem waitSlot_gateClosed (s : PState) (i : Nat) :
    (waitSlot s i).gateClosed = s.gateClosed := rfl

@[simp] theorem waitSlot_tokenHeld (s : PState) (i : Nat) :
    (waitSlot s i).tokenHeld = s.tokenHeld := rfl

@[simp] theorem waitSlot_sink (s : PState) (i : Nat) :
    (waitSlot s i).sink = s.sink := rfl

@[simp] theorem waitSlot_result (s : PState) (i : Nat) :
    (waitSlot s i).result = s.result := rfl

@[simp] theorem waitSlot_cancelled (s : PState) (i : Nat) :
    (waitSlot s i).cancelled = s.cancelled := rfl

@[simp] theorem finishSlot_phase (s : PState) (i : Nat) (r : Option SlotErr) (ns : List Nat) :
    (finishSlot s i r ns).phase = updFn s.phase i Phase.done := rfl

@[simp] theorem finishSlot_gateClosed (s : PState) (i : Nat) (r : Option SlotErr) (ns : List Nat) :
    (finishSlot s i r ns).gateClosed = updFn s.gateClosed i true := rfl

@[simp] theorem finishSlot_tokenHeld (s : PState) (i : Nat) (r : Option SlotErr) (ns : List Nat) :
    (finishSlot s i r ns).tokenHeld = updFn s.tokenHeld i false := rfl

@[simp] theorem finishSlot_sink (s : PState) (i : Nat) (r : Option SlotErr) (ns : List Nat) :
    (finishSlot s i r ns).sink = ns := rfl

@[simp] theorem finishSlot_result (s : PState) (i : Nat) (r : Option SlotErr) (ns : List Nat) :
    (finishSlot s i r ns).result = updFn s.result i (some r) := rfl

@[simp] theorem finishSlot_cancelled (s : PState) (i : Nat) (r : Option SlotErr) (ns : List Nat) :
    (finishSlot s i r ns).cancelled = s.cancelled := rfl

@[simp] theorem setCancelled_phase (s : PState) : (setCancelled s).phase = s.phase := rfl

@[simp] theorem setCancelled_gateClosed (s : PState) :
    (setCancelled s).gateClosed = s.gateClosed := rfl

@[simp] theorem setCancelled_tokenHeld (s : PState) :
    (setCancelled s).tokenHeld = s.tokenHeld := rfl

@[simp] theorem setCancelled_sink (s : PState) : (setCancelled s).sink = s.sink := rfl

@[simp] theorem setCancelled_result (s : PState) : (setCancelled s).result = s.result := rfl

@[simp] theorem setCancelled_cancelled (s : PState) : (setCancelled s).cancelled = true := rfl

theorem updFn_self {α : Type} (f : Nat → α) (i : Nat) (x : α) : updFn f i x i = x := by
  simp [updFn]

theorem updFn_ne {α : Type} (f : Nat → α) (i j : Nat) (x : α) (h : j ≠ i) :
    updFn f i x j = f j := by
  simp [updFn, h]

theorem activeCount_updFn_le_succ (k : Nat) (ph : Nat → Phase) (i : Nat) (p : Phase) :
    activeCount k (updFn ph i p) ≤ activeCount k ph + 1 := by
  have hsub : (Finset.range k).filter (fun j => isActive (updFn ph i p j) = true) ⊆
      insert i ((Finset.range k).filter (fun j => isActive (ph j) = true)) := by
    intro j hj
    rcases Finset.mem_filter.mp hj with ⟨hjr, hja⟩
    by_cases hji : j = i
    · exact Finset.mem_insert.mpr (Or.inl hji)
    · refine Finset.mem_insert.mpr (Or.inr (Finset.mem_filter.mpr ⟨hjr, ?_⟩))
      rwa [updFn_ne ph i j p hji] at hja
  exact le_trans (Finset.card_le_card hsub) (Finset.card_insert_le _ _)

theorem activeCount_updFn_le_of_inactive (k : Nat) (ph : Nat → Phase) (i : Nat) (p : Phase)
    (hp : isActive p = false) :
    activeCount k (updFn ph i p) ≤ activeCount k ph := by
  refine Finset.card_le_card ?_
  intro j hj
  rcases Finset.mem_filter.mp hj with ⟨hjr, hja⟩
  by_cases hji : j = i
  · subst hji
    rw [updFn_self] at hja
    rw [hja] at hp
    cases hp
  · rw [updFn_ne ph i j p hji] at hja
    exact Finset.mem_filter.mpr ⟨hjr, hja⟩

theorem activeCount_updFn_le_of_active (k : Nat) (ph : Nat → Phase) (i : Nat) (p : Phase)
    (hold : isActive (ph i) = true) :
    activeCount k (updFn ph i p) ≤ activeCount k ph := by
  refine Finset.card_le_card ?_
  intro j hj
  rcases Finset.mem_filter.mp hj with ⟨hjr, hja⟩
  by_cases hji : j = i
  · subst hji
    exact Finset.mem_filter.mpr ⟨hjr, hold⟩
  · rw [updFn_ne ph i j p hji] at hja
    exact Finset.mem_filter.mpr ⟨hjr, hja⟩

theorem activeCount_eq_zero (k : Nat) (ph : Nat → Phase)
    (h : ∀ j, j < k → isActive (ph j) = false) : activeCount k ph = 0 := by
  unfold activeCount
  rw [Finset.card_eq_zero, Finset.filter_eq_empty_iff]
  intro j hj
  rw [h j (Finset.mem_range.mp hj)]
  simp

theorem fetchingCount_le_activeCount (k : Nat) (ph : Nat → Phase) :
    fetchingCount k ph ≤ activeCount k ph := by
  refine Finset.card_le_card ?_
  intro j hj
  rcases Finset.mem_filter.mp hj with ⟨hjr, hja⟩
  refine Finset.mem_filter.mpr ⟨hjr, ?_⟩
  rw [hja]
  rfl

theorem inv_init (cfg : PipelineCfg) : Inv cfg initState := by
  refine ⟨?_, ?_, ?_, ?_, ?_, ?_, ?_, ?_⟩
  · intro i
    simp [initState]
  · intro i
    simp [initState, isActive]
  · intro i j _ hj
    exact absurd rfl hj
  · rw [activeCount_eq_zero]
    · exact Nat.zero_le _
    · intro j _
      rfl
  · intro r hr
    simp [initState] at hr
  · intro i h
    simp [initState] at h
  · intro i
    simp [initState]
  · intro i _
    left
    rfl

theorem inv_finish (cfg : PipelineCfg) (s : PState) (i : Nat) (r : Option SlotErr)
    (ns : List Nat) (hinv : Inv cfg s)
    (hia : s.phase i = Phase.fetching ∨ s.phase i = Phase.waitGate)
    (hnsOK : ∀ x, x ∈ ns →
      ∃ j, j < cfg.k ∧ x = cfg.runID j ∧ cfg.fetch j = FetchOutcome.ready ∧
        cfg.commitOK j = true)
    (hrnil : (cfg.fetch i = FetchOutcome.notReady ∨ cfg.fetch i = FetchOutcome.absent) →
      r = none) :
    Inv cfg (finishSlot s i r ns) := by
  obtain ⟨hgate, htok, horder, hact, hsink, hwait, hres, hskip⟩ := hinv
  have hins : s.phase i ≠ Phase.notStarted := by
    rcases hia with h | h <;> rw [h] <;> exact fun hc => Phase.noConfusion hc
  refine ⟨?_, ?_, ?_, ?_, ?_, ?_, ?_, ?_⟩
  · intro j
    simp only [finishSlot_gateClosed, finishSlot_phase]
    by_cases hji : j = i
    · subst hji
      rw [updFn_self, updFn_self]
      simp
    · rw [updFn_ne _ _ _ _ hji, updFn_ne _ _ _ _ hji]
      exact hgate j
  · intro j
    simp only [finishSlot_tokenHeld, finishSlot_phase]
    by_cases hji : j = i
    · subst hji
      rw [updFn_self, updFn_self]
      simp [isActive]
    · rw [updFn_ne _ _ _ _ hji, updFn_ne _ _ _ _ hji]
      exact htok j
  · intro a b hab hb
    simp only [finishSlot_phase] at hb ⊢
    by_cases hai : a = i
    · subst hai
      rw [updFn_self]
      exact fun h => Phase.noConfusion h
    · rw [updFn_ne _ _ _ _ hai]
      by_cases hbi : b = i
      · subst hbi
        exact horder a b hab hins
      · rw [updFn_ne _ _ _ _ hbi] at hb
        exact horder a b hab hb
  · simp only [finishSlot_phase]
    exact le_trans (activeCount_updFn_le_of_inactive cfg.k s.phase i Phase.done rfl) hact
  · simp only [finishSlot_sink]
    exact hnsOK
  · intro j hj
    simp only [finishSlot_phase] at hj
    by_cases hji : j = i
    · subst hji
      rw [updFn_self] at hj
      exact absurd hj (by decide)
    · rw [updFn_ne _ _ _ _ hji] at hj
      exact hwait j hj
  · intro j
    simp only [finishSlot_result, finishSlot_phase]
    by_cases hji : j = i
    · subst hji
      rw [updFn_self, updFn_self]
      simp
    · rw [updFn_ne _ _ _ _ hji, updFn_ne _ _ _ _ hji]
      exact hres j
  · intro j hj
    simp only [finishSlot_result]
    by_cases hji : j = i
    · subst hji
      rw [updFn_self, hrnil hj]
      right
      rfl
    · rw [updFn_ne _ _ _ _ hji]
      exact hskip j hj

theorem inv_step (cfg : PipelineCfg) {s t : PState} (hinv : Inv cfg s)
    (hstep : Step cfg s t) : Inv cfg t := by
  cases hstep with
  | spawn i hik hns hprev hcap =>
    obtain ⟨hgate, htok, horder, hact, hsink, hwait, hres, hskip⟩ := hinv
    refine ⟨?_, ?_, ?_, ?_, ?_, ?_, ?_, ?_⟩
    · intro j
      simp only [spawnSlot_gateClosed, spawnSlot_phase]
      by_cases hji : j = i
      · subst hji
        rw [updFn_self]
        constructor
        · intro h
          have hd := (hgate j).mp h
          rw [hns] at hd
          exact absurd hd (by decide)
        · intro h
          exact absurd h (by decide)
      · rw [updFn_ne _ _ _ _ hji]
        exact hgate j
    · intro j
      simp only [spawnSlot_tokenHeld, spawnSlot_phase]
      by_cases hji : j = i
      · subst hji
        rw [updFn_self, updFn_self]
        simp [isActive]
      · rw [updFn_ne _ _ _ _ hji, updFn_ne _ _ _ _ hji]
        exact htok j
    · intro a b hab hb
      simp only [spawnSlot_phase] at hb ⊢
      by_cases hai : a = i
      · subst hai
        rw [updFn_self]
        exact fun h => Phase.noConfusion h
      · rw [updFn_ne _ _ _ _ hai]
        by_cases hbi : b = i
        · subst hbi
          rcases Nat.lt_or_ge a b with hlt | hge
          · exact hprev a hlt
          · exact absurd (Nat.le_antisymm hab hge) hai
        · rw [updFn_ne _ _ _ _ hbi] at hb
          exact horder a b hab hb
    · simp only [spawnSlot_phase]
      exact le_trans (activeCount_updFn_le_succ _ _ _ _) (by omega)
    · simp only [spawnSlot_sink]
      exact hsink
    · intro j hj
      simp only [spawnSlot_phase] at hj
      by_cases hji : j = i
      · subst hji
        rw [updFn_self] at hj
        exact absurd hj (by decide)
      · rw [updFn_ne _ _ _ _ hji] at hj
        exact hwait j hj
    · intro j
      simp only [spawnSlot_result, spawnSlot_phase]
      by_cases hji : j = i
      · subst hji
        rw [updFn_self]
        constructor
        · intro h
          have hd := (hres j).mp h
          rw [hns] at hd
          exact absurd hd (by decide)
        · intro h
          exact absurd h (by decide)
      · rw [updFn_ne _ _ _ _ hji]
        exact hres j
    · intro j hj
      simp only [spawnSlot_result]
      exact hskip j hj
  | fetchReady i hik hf hr =>
    obtain ⟨hgate, htok, horder, hact, hsink, hwait, hres, hskip⟩ := hinv
    refine ⟨?_, ?_, ?_, ?_, ?_, ?_, ?_, ?_⟩
    · intro j
      simp only [waitSlot_gateClosed, waitSlot_phase]
      by_cases hji : j = i
      · subst hji
        rw [updFn_self]
        constructor
        · intro h
          have hd := (hgate j).mp h
          rw [hf] at hd
          exact absurd hd (by decide)
        · intro h
          exact absurd h (by decide)
      · rw [updFn_ne _ _ _ _ hji]
        exact hgate j
    · intro j
      simp only [waitSlot_tokenHeld, waitSlot_phase]
      by_cases hji : j = i
      · subst hji
        rw [updFn_self]
        have ht : s.tokenHeld j = true := (htok j).mpr (by rw [hf]; rfl)
        rw [ht]
        simp [isActive]
      · rw [updFn_ne _ _ _ _ hji]
        exact htok j
    · intro a b hab hb
      simp only [waitSlot_phase] at hb ⊢
      by_cases hai : a = i
      · subst hai
        rw [updFn_self]
        exact fun h => Phase.noConfusion h
      · rw [updFn_ne _ _ _ _ hai]
        by_cases hbi : b = i
        · subst hbi
          refine horder a b hab ?_
          rw [hf]
          exact fun h => Phase.noConfusion h
        · rw [updFn_ne _ _ _ _ hbi] at hb
          exact horder a b hab hb
    · simp only [waitSlot_phase]
      exact le_trans
        (activeCount_updFn_le_of_active cfg.k s.phase i Phase.waitGate (by rw [hf]; rfl))
        hact
    · simp only [waitSlot_sink]
      exact hsink
    · intro j hj
      simp only [waitSlot_phase] at hj
      by_cases hji : j = i
      · subst hji
        exact hr
      · rw [updFn_ne _ _ _ _ hji] at hj
        exact hwait j hj
    · intro j
      simp only [waitSlot_result, waitSlot_phase]
      by_cases hji : j = i
      · subst hji
        rw [updFn_self]
        constructor
        · intro h
          have hd := (hres j).mp h
          rw [hf] at hd
          exact absurd hd (by decide)
        · intro h
          exact absurd h (by decide)
      · rw [updFn_ne _ _ _ _ hji]
        exact hres j
    · intro j hj
      simp only [waitSlot_result]
      exact hskip j hj
  | fetchSkip i hik hf hr =>
    exact inv_finish cfg s i none s.sink hinv (Or.inl hf) hinv.sink_ready (fun _ => rfl)
  | fetchFail i hik hf hr =>
    refine inv_finish cfg s i (some SlotErr.fetchErr) s.sink hinv (Or.inl hf)
      hinv.sink_ready ?_
    intro hcontra
    rw [hr] at hcontra
    rcases hcontra with h | h <;> exact absurd h (by decide)
  | commitPut i hik hw hg hc =>
    refine inv_finish cfg s i none (s.sink ++ [cfg.runID i]) hinv (Or.inr hw) ?_
      (fun _ => rfl)
    intro x hx
    rcases List.mem_append.mp hx with h | h
    · exact hinv.sink_ready x h
    · rw [List.mem_singleton.mp h]
      exact ⟨i, hik, rfl, hinv.wait_ready i hw, hc⟩
  | commitFail i hik hw hg hc =>
    refine inv_finish cfg s i (some SlotErr.commitErr) s.sink hinv (Or.inr hw)
      hinv.sink_ready ?_
    intro hcontra
    have hrdy := hinv.wait_ready i hw
    rw [hrdy] at hcontra
    rcases hcontra with h | h <;> exact absurd h (by decide)
  | cancelCtx h =>
    obtain ⟨hgate, htok, horder, hact, hsink, hwait, hres, hskip⟩ := hinv
    exact ⟨hgate, htok, horder, hact, hsink, hwait, hres, hskip⟩
  | cancelWait i hik hw hcan =>
    exact inv_finish cfg s i none s.sink hinv (Or.inr hw) hinv.sink_ready (fun _ => rfl)

theorem inv_reachable (cfg : PipelineCfg) {s : PState} (hs : Reachable cfg s) : Inv cfg s := by
  induction hs with
  | refl => exact inv_init cfg
  | tail _ hbc ih => exact inv_step cfg ih hbc

theorem sum_phaseWeight_updFn (k : Nat) (ph : Nat → Phase) (i : Nat) (p : Phase)
    (hik : i < k) :
    Finset.sum (Finset.range k) (fun j => phaseWeight (updFn ph i p j)) =
      phaseWeight p + Finset.sum ((Finset.range k).erase i) (fun j => phaseWeight (ph j)) := by
  have hi : i ∈ Finset.range k := Finset.mem_range.mpr hik
  rw [← Finset.add_sum_erase (Finset.range k) (fun j => phaseWeight (updFn ph i p j)) hi]
  congr 1
  · rw [updFn_self]
  · refine Finset.sum_congr rfl ?_
    intro j hj
    rw [updFn_ne _ _ _ _ (Finset.mem_erase.mp hj).1]

theorem sum_phaseWeight_split (k : Nat) (ph : Nat → Phase) (i : Nat) (hik : i < k) :
    Finset.sum (Finset.range k) (fun j => phaseWeight (ph j)) =
      phaseWeight (ph i) + Finset.sum ((Finset.range k).erase i) (fun j => phaseWeight (ph j)) :=
  (Finset.add_sum_erase (Finset.range k) _ (Finset.mem_range.mpr hik)).symm

theorem sum_phaseWeight_updFn_lt (k : Nat) (ph : Nat → Phase) (i : Nat) (p : Phase)
    (hik : i < k) (hlt : phaseWeight p < phaseWeight (ph i)) :
    Finset.sum (Finset.range k) (fun j => phaseWeight (updFn ph i p j)) <
      Finset.sum (Finset.range k) (fun j => phaseWeight (ph j)) := by
  rw [sum_phaseWeight_updFn k ph i p hik, sum_phaseWeight_split k ph i hik]
  exact Nat.add_lt_add_right hlt _

theorem progress (cfg : PipelineCfg) (hN : 0 < cfg.N) (s : PState) (hs : Reachable cfg s)
    (hnot : ¬ ∀ i, i < cfg.k → s.phase i = Phase.done) :
    ∃ t, Step cfg s t ∧ pipeMeasure cfg t < pipeMeasure cfg s := by
  have hinv := inv_reachable cfg hs
  have hex : ∃ i, i < cfg.k ∧ s.phase i ≠ Phase.done := by
    by_contra hno
    push_neg at hno
    exact hnot hno
  have hi := Nat.find_spec hex
  set i := Nat.find hex with hidef
  have hjdone : ∀ j, j < i → s.phase j = Phase.done := by
    intro j hj
    by_contra hne
    exact Nat.find_min hex hj ⟨lt_trans hj hi.1, hne⟩
  cases hph : s.phase i with
  | notStarted =>
    have hprev : ∀ j, j < i → s.phase j ≠ Phase.notStarted := by
      intro j hj
      rw [hjdone j hj]
      exact fun h => Phase.noConfusion h
    have hallns : ∀ j, i ≤ j → s.phase j = Phase.notStarted := by
      intro j hij
      by_contra hne
      exact hinv.spawn_order i j hij hne hph
    have hcap0 : activeCount cfg.k s.phase = 0 := by
      apply activeCount_eq_zero
      intro j hjk
      rcases Nat.lt_or_ge j i with hj | hj
      · rw [hjdone j hj]
        rfl
      · rw [hallns j hj]
        rfl
    refine ⟨spawnSlot s i, Step.spawn s i hi.1 hph hprev (by rw [hcap0]; exact hN), ?_⟩
    simp only [pipeMeasure, spawnSlot_phase]
    exact sum_phaseWeight_updFn_lt cfg.k s.phase i Phase.fetching hi.1 (by rw [hph]; decide)
  | fetching =>
    cases hf : cfg.fetch i with
    | ready =>
      refine ⟨waitSlot s i, Step.fetchReady s i hi.1 hph hf, ?_⟩
      simp only [pipeMeasure, waitSlot_phase]
      exact sum_phaseWeight_updFn_lt cfg.k s.phase i Phase.waitGate hi.1 (by rw [hph]; decide)
    | notReady =>
      refine ⟨finishSlot s i none s.sink, Step.fetchSkip s i hi.1 hph (Or.inl hf), ?_⟩
      simp only [pipeMeasure, finishSlot_phase]
      exact sum_phaseWeight_updFn_lt cfg.k s.phase i Phase.done hi.1 (by rw [hph]; decide)
    | absent =>
      refine ⟨finishSlot s i none s.sink, Step.fetchSkip s i hi.1 hph (Or.inr hf), ?_⟩
      simp only [pipeMeasure, finishSlot_phase]
      exact sum_phaseWeight_updFn_lt cfg.k s.phase i Phase.done hi.1 (by rw [hph]; decide)
    | fetchError =>
      refine ⟨finishSlot s i (some SlotErr.fetchErr) s.sink,
        Step.fetchFail s i hi.1 hph hf, ?_⟩
      simp only [pipeMeasure, finishSlot_phase]
      exact sum_phaseWeight_updFn_lt cfg.k s.phase i Phase.done hi.1 (by rw [hph]; decide)
  | waitGate =>
    have hg : predGateClosed s i = true := by
      cases hidx : i with
      | zero => rfl
      | succ m =>
        show s.gateClosed m = true
        refine (hinv.gate_done m).mpr ?_
        refine hjdone m ?_
        omega
    cases hc : cfg.commitOK i with
    | true =>
      refine ⟨finishSlot s i none (s.sink ++ [cfg.runID i]),
        Step.commitPut s i hi.1 hph hg hc, ?_⟩
      simp only [pipeMeasure, finishSlot_phase]
      exact sum_phaseWeight_updFn_lt cfg.k s.phase i Phase.done hi.1 (by rw [hph]; decide)
    | false =>
      refine ⟨finishSlot s i (some SlotErr.commitErr) s.sink,
        Step.commitFail s i hi.1 hph hg hc, ?_⟩
      simp only [pipeMeasure, finishSlot_phase]
      exact sum_phaseWeight_updFn_lt cfg.k s.phase i Phase.done hi.1 (by rw [hph]; decide)
  | done =>
    exact absurd hph hi.2

theorem completion_aux (cfg : PipelineCfg) (hN : 0 < cfg.N) :
    ∀ n (s : PState), Reachable cfg s → pipeMeasure cfg s ≤ n →
      ∃ t, Relation.ReflTransGen (Step cfg) s t ∧ ∀ i, i < cfg.k → t.phase i = Phase.done := by
  intro n
  induction n with
  | zero =>
    intro s _ hm
    refine ⟨s, Relation.ReflTransGen.refl, ?_⟩
    intro i hik
    have hle : phaseWeight (s.phase i) ≤ pipeMeasure cfg s := by
      simp only [pipeMeasure]
      rw [sum_phaseWeight_split cfg.k s.phase i hik]
      exact Nat.le_add_right _ _
    have hzero : phaseWeight (s.phase i) = 0 := by omega
    revert hzero
    cases s.phase i <;> intro hzero
    · exact absurd hzero (by decide)
    · exact absurd hzero (by decide)
    · exact absurd hzero (by decide)
    · rfl
  | succ n ih =>
    intro s hs hm
    by_cases hall : ∀ i, i < cfg.k → s.phase i = Phase.done
    · exact ⟨s, Relation.ReflTransGen.refl, hall⟩
    · obtain ⟨t, hstep, hlt⟩ := progress cfg hN s hs hall
      have hreach : Reachable cfg t := Relation.ReflTransGen.tail hs hstep
      obtain ⟨u, hru, hdone⟩ := ih t hreach (by omega)
      exact ⟨u, Relation.ReflTransGen.head hstep hru, hdone⟩

theorem completion (cfg : PipelineCfg) (hN : 0 < cfg.N) (s : PState) (hs : Reachable cfg s) :
    ∃ t, Relation.ReflTransGen (Step cfg) s t ∧
      ∀ i, i < cfg.k → t.phase i = Phase.done ∧ t.gateClosed i = true := by
  obtain ⟨t, hrt, hdone⟩ := completion_aux cfg hN (pipeMeasure cfg s) s hs (le_refl _)
  refine ⟨t, hrt, ?_⟩
  intro i hik
  have hreach : Reachable cfg t := Relation.ReflTransGen.trans hs hrt
  exact ⟨hdone i hik, ((inv_reachable cfg hreach).gate_done i).mpr (hdone i hik)⟩

theorem ordered_inv (cfg : PipelineCfg)
    (hready : ∀ i, i < cfg.k → cfg.fetch i = FetchOutcome.ready)
    (hcommit : ∀ i, i < cfg.k → cfg.commitOK i = true)
    {s : PState} (hs : Reachable cfg s) :
    s.cancelled = false → OrderedInv cfg s := by
  induction hs with
  | refl =>
    intro _
    refine ⟨0, Nat.zero_le _, ?_, rfl⟩
    intro i _
    constructor
    · intro h
      exact absurd h (by simp [initState])
    · intro h
      exact absurd h (by omega)
  | tail hab hstep ih =>
    intro hcf
    cases hstep with
    | spawn i hik hns hprev hcap =>
      obtain ⟨m, hmk, hiff, hsink⟩ := ih (by simpa using hcf)
      refine ⟨m, hmk, ?_, by simpa using hsink⟩
      intro j hjk
      simp only [spawnSlot_phase]
      by_cases hji : j = i
      · subst hji
        rw [updFn_self]
        constructor
        · intro h
          exact absurd h (by decide)
        · intro h
          have := (hiff j hjk).mpr h
          rw [hns] at this
          exact absurd this (by decide)
      · rw [updFn_ne _ _ _ _ hji]
        exact hiff j hjk
    | fetchReady i hik hf hr =>
      obtain ⟨m, hmk, hiff, hsink⟩ := ih (by simpa using hcf)
      refine ⟨m, hmk, ?_, by simpa using hsink⟩
      intro j hjk
      simp only [waitSlot_phase]
      by_cases hji : j = i
      · subst hji
        rw [updFn_self]
        constructor
        · intro h
          exact absurd h (by decide)
        · intro h
          have := (hiff j hjk).mpr h
          rw [hf] at this
          exact absurd this (by decide)
      · rw [updFn_ne _ _ _ _ hji]
        exact hiff j hjk
    | fetchSkip i hik hf hr =>
      rw [hready i hik] at hr
      rcases hr with h | h <;> exact absurd h (by decide)
    | fetchFail i hik hf hr =>
      rw [hready i hik] at hr
      exact absurd hr (by decide)
    | commitPut i hik hw hg hc =>
      rename_i b
      obtain ⟨m, hmk, hiff, hsink⟩ := ih (by simpa using hcf)
      have hinvb := inv_reachable cfg hab
      have hmi : m ≤ i := by
        by_contra hlt
        push_neg at hlt
        have := (hiff i hik).mpr hlt
        rw [hw] at this
        exact absurd this (by decide)
      have him : i ≤ m := by
        cases hidx : i with
        | zero => exact Nat.zero_le m
        | succ j =>
          have hgj : b.gateClosed j = true := by
            rw [hidx] at hg
            exact hg
          have hjd : b.phase j = Phase.done := (hinvb.gate_done j).mp hgj
          have hjk : j < cfg.k := by omega
          have := (hiff j hjk).mp hjd
          omega
      have hieq : i = m := Nat.le_antisymm him hmi
      subst hieq
      refine ⟨i + 1, by omega, ?_, ?_⟩
      · intro j hjk
        simp only [finishSlot_phase]
        by_cases hji : j = i
        · subst hji
          rw [updFn_self]
          constructor
          · intro _
            omega
          · intro _
            rfl
        · rw [updFn_ne _ _ _ _ hji]
          constructor
          · intro h
            have := (hiff j hjk).mp h
            omega
          · intro h
            refine (hiff j hjk).mpr ?_
            omega
      · simp only [finishSlot_sink]
        rw [hsink, List.range_succ, List.map_append]
        rfl
    | commitFail i hik hw hg hc =>
      rw [hcommit i hik] at hc
      exact absurd hc (by decide)
    | cancelCtx h =>
      rw [setCancelled_cancelled] at hcf
      exact absurd hcf (by decide)
    | cancelWait i hik hw hcan =>
      rw [finishSlot_cancelled] at hcf
      rw [hcf] at hcan
      exact absurd hcan (by decide)

theorem step_a1 : Step cfgA initState a1 :=
  Step.spawn initState 0 (by decide) rfl (fun j hj => absurd hj (by omega)) (by decide)

theorem step_a2 : Step cfgA a1 a2 := Step.fetchReady a1 0 (by decide) rfl rfl

theorem step_a3 : Step cfgA a2 a3 := Step.commitPut a2 0 (by decide) rfl rfl rfl

theorem step_a4 : Step cfgA a3 a4 := Step.spawn a3 1 (by decide) rfl (by decide) (by decide)

theorem step_a5 : Step cfgA a4 a5 := Step.fetchReady a4 1 (by decide) rfl rfl

theorem step_a6 : Step cfgA a5 a6 := Step.commitPut a5 1 (by decide) rfl rfl rfl

theorem reach_a1 : Reachable cfgA a1 := Relation.ReflTransGen.single step_a1

theorem reach_a6 : Reachable cfgA a6 :=
  ((((reach_a1.tail step_a2).tail step_a3).tail step_a4).tail step_a5).tail step_a6

theorem step_b1 : Step cfgB initState b1 :=
  Step.spawn initState 0 (by decide) rfl (fun j hj => absurd hj (by omega)) (by decide)

theorem step_b2 : Step cfgB b1 b2 := Step.fetchReady b1 0 (by decide) rfl rfl

theorem step_b3 : Step cfgB b2 b3 := Step.cancelCtx b2 rfl

theorem step_b4 : Step cfgB b3 b4 := Step.cancelWait b3 0 (by decide) rfl rfl

theorem reach_b2 : Reachable cfgB b2 := (Relation.ReflTransGen.single step_b1).tail step_b2

theorem reach_b3 : Reachable cfgB b3 := reach_b2.tail step_b3

theorem step_d1 : Step cfgC initState d1 :=
  Step.spawn initState 0 (by decide) rfl (fun j hj => absurd hj (by omega)) (by decide)

theorem step_d2 : Step cfgC d1 d2 := Step.spawn d1 1 (by decide) rfl (by decide) (by decide)

theorem step_d3 : Step cfgC d2 d3 := Step.fetchSkip d2 0 (by decide) rfl (Or.inr rfl)

theorem step_d4 : Step cfgC d3 d4 := Step.fetchReady d3 1 (by decide) rfl rfl

theorem reach_d4 : Reachable cfgC d4 :=
  (((Relation.ReflTransGen.single step_d1).tail step_d2).tail step_d3).tail step_d4

theorem heldCount_le_of_inv (cfg : PipelineCfg) (s : PState) (hinv : Inv cfg s) :
    heldCount cfg.k s ≤ cfg.N := by
  have hset : ((Finset.range cfg.k).filter (fun i => s.tokenHeld i = true)) =
      ((Finset.range cfg.k).filter (fun i => isActive (s.phase i) = true)) := by
    ext j
    simp only [Finset.mem_filter]
    constructor
    · rintro ⟨h1, h2⟩
      exact ⟨h1, (hinv.token_active j).mp h2⟩
    · rintro ⟨h1, h2⟩
      exact ⟨h1, (hinv.token_active j).mpr h2⟩
  unfold heldCount
  rw [hset]
  exact hinv.active_le

theorem gate_mono_updFn (s : PState) (j i : Nat) (hgi : s.gateClosed i = true) :
    updFn s.gateClosed j true i = true := by
  by_cases hij : i = j
  · subst hij
    rw [updFn_self]
  · rw [updFn_ne _ _ _ _ hij]
    exact hgi

/-- C1: within one job, if every enumerated run's fetch returns ready and
every commit succeeds, then in any reachable uncancelled state in which all
slots have finished, the sink received the job's CommitRecords in exactly
enumeration order r1..rk — regardless of the order in which the fetches
completed — and when the enumerated identifiers are strictly increasing the
sink log is strictly increasing; the chained gates enforce this. -/
theorem C1_ordered_commit (cfg : PipelineCfg)
    (hready : ∀ i, i < cfg.k → cfg.fetch i = FetchOutcome.ready)
    (hcommit : ∀ i, i < cfg.k → cfg.commitOK i = true)
    (s : PState) (hs : Reachable cfg s) (hnc : s.cancelled = false)
    (hdone : ∀ i, i < cfg.k → s.phase i = Phase.done) :
    s.sink = (List.range cfg.k).map cfg.runID ∧
    ((∀ i j, i < j → j < cfg.k → cfg.runID i < cfg.runID j) →
      List.Pairwise (fun a b => a < b) s.sink) := by
  obtain ⟨m, hmk, hiff, hsink⟩ := ordered_inv cfg hready hcommit hs hnc
  have hmeq : m = cfg.k := by
    by_contra hne
    have hmlt : m < cfg.k := lt_of_le_of_ne hmk hne
    have := (hiff m hmlt).mp (hdone m hmlt)
    omega
  subst hmeq
  refine ⟨hsink, ?_⟩
  intro hmono
  rw [hsink, List.pairwise_map]
  have hpl : List.Pairwise (fun a b => a < b) (List.range cfg.k) :=
    List.pairwise_lt_range cfg.k
  refine hpl.imp_of_mem ?_
  intro a b _ hb hab
  exact hmono a b hab (List.mem_range.mp hb)

/-- Witness for C1: the two-run job `cfgA` driven through a complete
interleaving ends with sink log exactly `[0, 1]`. -/
theorem C1_ordered_commit_witness :
    a6.sink = (List.range cfgA.k).map cfgA.runID ∧ a6.sink = [0, 1] :=
  ⟨(C1_ordered_commit cfgA (by decide) (by decide) a6 reach_a6 rfl (by decide)).1,
   by decide⟩

/-- C2: every slot closes its completion gate exactly once, on every exit
path of its run: in any reachable state a slot's gate is closed iff its Run
has returned; a closed gate stays closed across any step; any step on
which a slot's Run returns closes that slot's gate; and from any reachable
state the pipeline can always continue to a state in which every slot is
done and every gate closed — no slot deadlocks waiting on a gate that is
never closed. -/
theorem C2_gate_discipline (cfg : PipelineCfg) (hN : 0 < cfg.N) (s : PState)
    (hs : Reachable cfg s) :
    (∀ i, s.gateClosed i = true ↔ s.phase i = Phase.done) ∧
    (∀ t i, Step cfg s t → s.gateClosed i = true → t.gateClosed i = true) ∧
    (∀ t i, Step cfg s t → s.phase i ≠ Phase.done → t.phase i = Phase.done →
      t.gateClosed i = true) ∧
    (∃ t, Relation.ReflTransGen (Step cfg) s t ∧
      ∀ i, i < cfg.k → t.phase i = Phase.done ∧ t.gateClosed i = true) := by
  refine ⟨(inv_reachable cfg hs).gate_done, ?_, ?_, completion cfg hN s hs⟩
  · intro t i hstep hgi
    cases hstep with
    | spawn j hik hns hprev hcap => simpa using hgi
    | fetchReady j hik hf hr => simpa using hgi
    | fetchSkip j hik hf hr =>
      simp only [finishSlot_gateClosed]
      exact gate_mono_updFn _ j i hgi
    | fetchFail j hik hf hr =>
      simp only [finishSlot_gateClosed]
      exact gate_mono_updFn _ j i hgi
    | commitPut j hik hw hg hc =>
      simp only [finishSlot_gateClosed]
      exact gate_mono_updFn _ j i hgi
    | commitFail j hik hw hg hc =>
      simp only [finishSlot_gateClosed]
      exact gate_mono_updFn _ j i hgi
    | cancelCtx h => simpa using hgi
    | cancelWait j hik hw hcan =>
      simp only [finishSlot_gateClosed]
      exact gate_mono_updFn _ j i hgi
  · intro t i hstep hnd htd
    cases hstep with
    | spawn j hik hns hprev hcap =>
      simp only [spawnSlot_phase] at htd
      by_cases hij : i = j
      · subst hij
        rw [updFn_self] at htd
        exact absurd htd (by decide)
      · rw [updFn_ne _ _ _ _ hij] at htd
        exact absurd htd hnd
    | fetchReady j hik hf hr =>
      simp only [waitSlot_phase] at htd
      by_cases hij : i = j
      · subst hij
        rw [updFn_self] at htd
        exact absurd htd (by decide)
      · rw [updFn_ne _ _ _ _ hij] at htd
        exact absurd htd hnd
    | fetchSkip j hik hf hr =>
      simp only [finishSlot_phase] at htd
      simp only [finishSlot_gateClosed]
      by_cases hij : i = j
      · subst hij
        rw [updFn_self]
      · rw [updFn_ne _ _ _ _ hij] at htd
        exact absurd htd hnd
    | fetchFail j hik hf hr =>
      simp only [finishSlot_phase] at htd
      simp only [finishSlot_gateClosed]
      by_cases hij : i = j
      · subst hij
        rw [updFn_self]
      · rw [updFn_ne _ _ _ _ hij] at htd
        exact absurd htd hnd
    | commitPut j hik hw hg hc =>
      simp only [finishSlot_phase] at htd
      simp only [finishSlot_gateClosed]
      by_cases hij : i = j
      · subst hij
        rw [updFn_self]
      · rw [updFn_ne _ _ _ _ hij] at htd
        exact absurd htd hnd
    | commitFail j hik hw hg hc =>
      simp only [finishSlot_phase] at htd
      simp only [finishSlot_gateClosed]
      by_cases hij : i = j
      · subst hij
        rw [updFn_self]
      · rw [updFn_ne _ _ _ _ hij] at htd
        exact absurd htd hnd
    | cancelCtx h =>
      simp only [setCancelled_phase] at htd
      exact absurd htd hnd
    | cancelWait j hik hw hcan =>
      simp only [finishSlot_phase] at htd
      simp only [finishSlot_gateClosed]
      by_cases hij : i = j
      · subst hij
        rw [updFn_self]
      · rw [updFn_ne _ _ _ _ hij] at htd
        exact absurd htd hnd

/-- Witness for C2: from the initial state of `cfgA` the pipeline runs to a
state with both slots done and both gates closed. -/
theorem C2_gate_discipline_witness :
    ∃ t, Relation.ReflTransGen (Step cfgA) initState t ∧
      ∀ i, i < cfgA.k → t.phase i = Phase.done ∧ t.gateClosed i = true :=
  (C2_gate_discipline cfgA (by decide) initState Relation.ReflTransGen.refl).2.2.2

/-- C3 counterexample: the claim that the semaphore token is released
immediately after fetch+validate, before the predecessor-gate wait, is
false: `b2` is a reachable state of `cfgB` in which slot 0 has completed
its fetch and is blocked on the select waiting for its predecessor gate
while still holding its token (the `Release` is deferred to the end of the
whole `Run`). -/
theorem C3_token_counterexample :
    Reachable cfgB b2 ∧ b2.phase 0 = Phase.waitGate ∧ b2.tokenHeld 0 = true :=
  ⟨reach_b2, rfl, rfl⟩

/-- C3 amended: the token is acquired when the slot is spawned and released
only when the slot's `Run` returns: in every reachable state a slot holds
its token exactly while it is active — fetching or blocked on the
predecessor gate / committing — and at most `N` tokens are held, so token
scarcity bounds the number of in-flight slots (hence fetches) but extends
across the gate wait and commit latency. -/
theorem C3_token_scope (cfg : PipelineCfg) (s : PState) (hs : Reachable cfg s) :
    (∀ i, s.tokenHeld i = true ↔
      (s.phase i = Phase.fetching ∨ s.phase i = Phase.waitGate)) ∧
    heldCount cfg.k s ≤ cfg.N := by
  have hinv := inv_reachable cfg hs
  constructor
  · intro i
    rw [hinv.token_active i]
    cases s.phase i <;> decide
  · exact heldCount_le_of_inv cfg s hinv

/-- Witness for the amended C3 at the reachable state `b2`. -/
theorem C3_token_scope_witness :
    (b2.tokenHeld 0 = true ↔
      (b2.phase 0 = Phase.fetching ∨ b2.phase 0 = Phase.waitGate)) ∧
    heldCount cfgB.k b2 ≤ cfgB.N :=
  ⟨(C3_token_scope cfgB b2 reach_b2).1 0, (C3_token_scope cfgB b2 reach_b2).2⟩

/-- C4 counterexample: the claim that a slot cancelled while waiting
returns a distinguished non-nil cancellation error is false: from the
reachable state `b3` — slot 0 blocked on its predecessor gate, shared
context cancelled — the slot exits on the `ctx.Done` branch of the select,
writing nothing and closing its gate, but its `Run` returns nil
(`result = some none`), not an error. -/
theorem C4_cancel_counterexample :
    Reachable cfgB b3 ∧ b3.phase 0 = Phase.waitGate ∧ b3.cancelled = true ∧
    Step cfgB b3 b4 ∧ b4.sink = [] ∧ b4.gateClosed 0 = true ∧
    b4.phase 0 = Phase.done ∧ b4.result 0 = some none :=
  ⟨reach_b3, rfl, rfl, step_b4, rfl, rfl, rfl, rfl⟩

/-- C4 amended: if the shared context is cancelled while a slot waits on
its predecessor gate, the slot can abandon: it performs no write to the
sink, still closes its own completion gate, and its `Run` returns nil — no
cancellation error is reported for the cancelled slot. -/
theorem C4_cancel_behavior (cfg : PipelineCfg) (s : PState) (i : Nat)
    (hs : Reachable cfg s) (hik : i < cfg.k) (hw : s.phase i = Phase.waitGate)
    (hcan : s.cancelled = true) :
    ∃ t, Step cfg s t ∧ t.sink = s.sink ∧ t.gateClosed i = true ∧
      t.phase i = Phase.done ∧ t.result i = some none := by
  refine ⟨finishSlot s i none s.sink, Step.cancelWait s i hik hw hcan, rfl, ?_, ?_, ?_⟩
  · simp only [finishSlot_gateClosed]
    rw [updFn_self]
  · simp only [finishSlot_phase]
    rw [updFn_self]
  · simp only [finishSlot_result]
    rw [updFn_self]

/-- Witness for the amended C4 at the reachable cancelled waiting state. -/
theorem C4_cancel_behavior_witness :
    ∃ t, Step cfgB b3 t ∧ t.sink = b3.sink ∧ t.gateClosed 0 = true ∧
      t.phase 0 = Phase.done ∧ t.result 0 = some none :=
  C4_cancel_behavior cfgB b3 0 reach_b3 (by decide) rfl rfl

/-- C5: an absent or not-ready run contributes no write and no error: in
every reachable state the sink holds only records of ready runs whose Put
succeeded (only ready fetches lead to a Put); a skipped slot's Run only
ever returns nil; and whenever a slot's gate is closed and its ready
successor is blocked on that gate, the successor's write can proceed at
once. -/
theorem C5_skip_semantics (cfg : PipelineCfg) (s : PState) (hs : Reachable cfg s) :
    (∀ r, r ∈ s.sink →
      ∃ i, i < cfg.k ∧ r = cfg.runID i ∧ cfg.fetch i = FetchOutcome.ready ∧
        cfg.commitOK i = true) ∧
    (∀ i, (cfg.fetch i = FetchOutcome.notReady ∨ cfg.fetch i = FetchOutcome.absent) →
      s.result i = none ∨ s.result i = some none) ∧
    (∀ i, i + 1 < cfg.k → s.gateClosed i = true → s.phase (i + 1) = Phase.waitGate →
      cfg.commitOK (i + 1) = true →
      Step cfg s (finishSlot s (i + 1) none (s.sink ++ [cfg.runID (i + 1)]))) := by
  have hinv := inv_reachable cfg hs
  refine ⟨hinv.sink_ready, hinv.skip_nil, ?_⟩
  intro i hik hg hw hc
  exact Step.commitPut s (i + 1) hik hw hg hc

/-- Witness for C5 at `cfgC` (run 0 absent, run 1 ready): after slot 0
skipped and closed its gate, slot 1 blocked on that gate can write. -/
theorem C5_skip_semantics_witness :
    (d4.result 0 = none ∨ d4.result 0 = some none) ∧
    Step cfgC d4 (finishSlot d4 1 none (d4.sink ++ [cfgC.runID 1])) :=
  ⟨(C5_skip_semantics cfgC d4 reach_d4).2.1 0 (Or.inr rfl),
   (C5_skip_semantics cfgC d4 reach_d4).2.2 0 (by decide) rfl rfl rfl⟩

/-- C8: in every reachable state of a job pipeline, at most `N` fetches are
in flight, where `N` is the pipeline's semaphore weight
(`numberOfConcurrentReaders`, set to 20 by `newJobBigQueryLoaderOptions`);
more strongly at most `N` slots are active at all. Independently, the
worker pool of `allJobsLoaderOptions.Run` is a fixed pool of
`poolWorkerCount = 20` sequential workers, so at most 20 jobs are processed
concurrently. -/
theorem C8_concurrency_bounds (cfg : PipelineCfg) (s : PState) (hs : Reachable cfg s) :
    fetchingCount cfg.k s.phase ≤ cfg.N ∧
    activeCount cfg.k s.phase ≤ cfg.N ∧
    numberOfConcurrentReaders = 20 ∧
    Pool.poolWorkerCount = 20 ∧
    Fintype.card (Fin Pool.poolWorkerCount) = 20 := by
  have hinv := inv_reachable cfg hs
  exact ⟨le_trans (fetchingCount_le_activeCount cfg.k s.phase) hinv.active_le,
    hinv.active_le, rfl, rfl, by rw [Fintype.card_fin]; rfl⟩

/-- Witness for C8 at the reachable state `a1` of `cfgA`. -/
theorem C8_concurrency_bounds_witness :
    fetchingCount cfgA.k a1.phase ≤ cfgA.N ∧ activeCount cfgA.k a1.phase ≤ cfgA.N :=
  ⟨(C8_concurrency_bounds cfgA a1 reach_a1).1,
   (C8_concurrency_bounds cfgA a1 reach_a1).2.1⟩

end Pipeline

namespace Checkpoint

/-- C6: at job-pipeline start the resume point passed to run enumeration
equals the successor of the latest recorded run identifier returned by the
lookup capability, or the origin sentinel "0" when no run is recorded;
consequently, under the enumerator contract, no run identifier less than or
equal to the checkpoint is ever delivered for re-processing. -/
theorem C6_resume_point (lastJobRun : Option Nat) (ids : List Nat)
    (henum : EnumeratorContract (startingJobRunID lastJobRun) ids) :
    startingJobRunID none = 0 ∧
    (∀ c, startingJobRunID (some c) = NextJobRunID c) ∧
    (∀ c, lastJobRun = some c → ∀ r, r ∈ ids → ¬ r ≤ c) := by
  refine ⟨rfl, fun c => rfl, ?_⟩
  intro c hc r hr
  have hle := henum r hr
  rw [hc] at hle
  simp only [startingJobRunID, NextJobRunID] at hle
  omega

theorem enum_six_eight : EnumeratorContract (startingJobRunID (some 5)) [6, 8] := by
  intro r hr
  simp only [List.mem_cons, List.not_mem_nil, or_false] at hr
  rcases hr with rfl | rfl <;> decide

/-- Witness for C6: checkpoint 5 with enumeration [6, 8]; the resume point
is 6 and run 8 is not ≤ the checkpoint. -/
theorem C6_resume_point_witness :
    startingJobRunID none = 0 ∧ startingJobRunID (some 5) = NextJobRunID 5 ∧
    ¬ (8 : Nat) ≤ 5 :=
  ⟨(C6_resume_point (some 5) [6, 8] enum_six_eight).1,
   (C6_resume_point (some 5) [6, 8] enum_six_eight).2.1 5,
   (C6_resume_point (some 5) [6, 8] enum_six_eight).2.2 5 rfl 8 (by decide)⟩

end Checkpoint

namespace Pool

theorem processJobs_foldl (jobs : List JobRow) (acc : List Nat) :
    jobs.foldl
      (fun errs j =>
        match jobErrOut j with
        | some e => errs ++ [e]
        | none => errs)
      acc = acc ++ jobs.filterMap jobErrOut := by
  induction jobs generalizing acc with
  | nil => simp
  | cons j t ih =>
    cases hj : jobErrOut j with
    | none =>
      simp only [List.foldl_cons, List.filterMap_cons, hj]
      exact ih acc
    | some e =>
      simp only [List.foldl_cons, List.filterMap_cons, hj]
      rw [ih (acc ++ [e])]
      simp

theorem processJobs_eq (jobs : List JobRow) :
    processJobs jobs = jobs.filterMap jobErrOut := by
  unfold processJobs
  rw [processJobs_foldl]
  simp

theorem jobsOf_cons (w : Fin poolWorkerCount) (p : JobRow × Fin poolWorkerCount)
    (l : List (JobRow × Fin poolWorkerCount)) :
    jobsOf w (p :: l) = if p.2 = w then p.1 :: jobsOf w l else jobsOf w l := by
  unfold jobsOf
  by_cases h : p.2 = w
  · simp [List.filter_cons, h]
  · simp [List.filter_cons, h]

theorem poolErrors_eq (l : List (JobRow × Fin poolWorkerCount)) :
    poolErrors l = (((l.map Prod.fst).filterMap jobErrOut : List Nat) : Multiset Nat) := by
  induction l with
  | nil =>
    unfold poolErrors jobsOf
    simp [processJobs]
  | cons p t ih =>
    have hterm : ∀ w : Fin poolWorkerCount,
        ((processJobs (jobsOf w (p :: t)) : List Nat) : Multiset Nat) =
          (if p.2 = w then (((jobErrOut p.1).toList : List Nat) : Multiset Nat) else 0) +
            ((processJobs (jobsOf w t) : List Nat) : Multiset Nat) := by
      intro w
      rw [jobsOf_cons]
      by_cases h : p.2 = w
      · rw [if_pos h, if_pos h, processJobs_eq, processJobs_eq, List.filterMap_cons]
        cases hj : jobErrOut p.1 <;> simp
      · rw [if_neg h, if_neg h]
        simp
    unfold poolErrors at ih ⊢
    rw [Finset.sum_congr rfl (fun w _ => hterm w), Finset.sum_add_distrib, ih,
      Finset.sum_ite_eq]
    simp only [Finset.mem_univ, if_pos, List.map_cons, List.filterMap_cons]
    cases hj : jobErrOut p.1 <;> simp

theorem jobsOf_length_sum (l : List (JobRow × Fin poolWorkerCount)) :
    Finset.sum Finset.univ (fun w => (jobsOf w l).length) = l.length := by
  induction l with
  | nil => simp [jobsOf]
  | cons p t ih =>
    have hterm : ∀ w : Fin poolWorkerCount, (jobsOf w (p :: t)).length =
        (if p.2 = w then 1 else 0) + (jobsOf w t).length := by
      intro w
      rw [jobsOf_cons]
      by_cases h : p.2 = w
      · simp [h]
        omega
      · simp [h]
    rw [Finset.sum_congr rfl (fun w _ => hterm w), Finset.sum_add_distrib, ih,
      Finset.sum_ite_eq]
    simp
    omega

/-- C7: for every job queue and every assignment of its entries to the pool
workers, the multiset of errors the pool aggregates equals exactly the
errors of the failing collected jobs (a failing job is recorded and its
worker continues; no error is dropped); the per-worker queues partition the
whole job list (the pool returns only after the closed queue is drained by
the workers); and the aggregate error is nil iff no processed job failed. -/
theorem C7_pool_aggregation (l : List (JobRow × Fin poolWorkerCount)) :
    poolErrors l = (((l.map Prod.fst).filterMap jobErrOut : List Nat) : Multiset Nat) ∧
    Finset.sum Finset.univ (fun w => (jobsOf w l).length) = l.length ∧
    (NewAggregate (poolErrors l) = none ↔ ∀ p, p ∈ l → jobErrOut p.1 = none) := by
  refine ⟨poolErrors_eq l, jobsOf_length_sum l, ?_⟩
  have hagg : NewAggregate (poolErrors l) = none ↔ poolErrors l = 0 := by
    unfold NewAggregate
    split_ifs with h
    · simp [h]
    · simp [h]
  rw [hagg, poolErrors_eq l, Multiset.coe_eq_zero, List.filterMap_eq_nil_iff]
  constructor
  · intro h p hp
    exact h p.1 (List.mem_map_of_mem Prod.fst hp)
  · intro h a ha
    obtain ⟨p, hp, rfl⟩ := List.mem_map.mp ha
    exact h p hp

/-- Witness for C7 at the concrete queue `poolL`: the aggregate holds
exactly the one error of the one failing collected job, and is non-nil. -/
theorem C7_pool_aggregation_witness :
    poolErrors poolL = (([7] : List Nat) : Multiset Nat) ∧
    ¬ NewAggregate (poolErrors poolL) = none := by
  have h := C7_pool_aggregation poolL
  constructor
  · rw [h.1]
    rfl
  · rw [h.2.2]
    intro hall
    have hbad := hall ({ shouldCollect := true, runErr := some 7 }, ⟨0, by decide⟩)
      (by decide)
    exact absurd hbad (by decide)

end Pool

namespace YamlCreator

theorem bool_true_of_not_false {b : Bool} (h : ¬ b = false) : b = true := by
  cases b
  · exact absurd rfl h
  · rfl

theorem bool_false_of_not_true {b : Bool} (h : ¬ b = true) : b = false := by
  cases b
  · rfl
  · exact absurd rfl h

theorem processOne_of_not_needsClone (pc d : Nat) (c : CfgInfo)
    (h : needsClone c = false) :
    (processOne pc d c).clonesDone = d ∧ (processOne pc d c).cloned = false := by
  unfold processOne
  by_cases h1 : c.passesFilter = false
  · rw [if_pos h1]
    exact ⟨rfl, rfl⟩
  rw [if_neg h1]
  by_cases h2 : c.hasBuildRootImage = false ∨ c.fromRepository = true ∨
      c.variantEmpty = false ∨ c.branchIsMasterOrMain = false
  · rw [if_pos h2]
    exact ⟨rfl, rfl⟩
  rw [if_neg h2]
  by_cases h3 : c.hasImageStreamTagReference = false
  · rw [if_pos h3]
    exact ⟨rfl, rfl⟩
  rw [if_neg h3]
  by_cases h4 : c.getterOK = false
  · rw [if_pos h4]
    exact ⟨rfl, rfl⟩
  rw [if_neg h4]
  by_cases h5 : c.unmarshalOK = false
  · rw [if_pos h5]
    exact ⟨rfl, rfl⟩
  rw [if_neg h5]
  by_cases h6 : c.inrepoMatchesExpected = true
  · rw [if_pos h6]
    refine ⟨?_, ?_⟩ <;> split_ifs <;> rfl
  rw [if_neg h6]
  by_cases h7 : c.marshalExpectedOK = false
  · rw [if_pos h7]
    exact ⟨rfl, rfl⟩
  exfalso
  push_neg at h2
  obtain ⟨hb, hfr, hv, hbr⟩ := h2
  have hx : needsClone c = true := by
    unfold needsClone
    rw [bool_true_of_not_false h1, bool_true_of_not_false hb, bool_false_of_not_true hfr,
      bool_true_of_not_false hv, bool_true_of_not_false hbr, bool_true_of_not_false h3,
      bool_true_of_not_false h4, bool_true_of_not_false h5, bool_false_of_not_true h6,
      bool_true_of_not_false h7]
    rfl
  rw [h] at hx
  exact Bool.noConfusion hx

theorem processOne_of_needsClone_ceiling (pc d : Nat) (c : CfgInfo)
    (h : needsClone c = true) (hc : 0 < pc ∧ pc ≤ d) :
    processOne pc d c = { clonesDone := d, cloned := false, res := none } := by
  unfold needsClone at h
  simp only [Bool.and_eq_true, Bool.not_eq_true'] at h
  obtain ⟨⟨⟨⟨⟨⟨⟨⟨⟨hp, hb⟩, hfr⟩, hv⟩, hbr⟩, histr⟩, hget⟩, hun⟩, hm⟩, hme⟩ := h
  unfold processOne
  rw [if_neg (by simp [hp]), if_neg (by simp [hb, hfr, hv, hbr]),
    if_neg (by simp [histr]), if_neg (by simp [hget]), if_neg (by simp [hun]),
    if_neg (by simp [hm]), if_neg (by simp [hme]), if_pos hc]

theorem processOne_of_needsClone_live (pc d : Nat) (c : CfgInfo)
    (h : needsClone c = true) (hc : ¬ (0 < pc ∧ pc ≤ d)) :
    (processOne pc d c).clonesDone = d + 1 ∧ (processOne pc d c).cloned = true := by
  unfold needsClone at h
  simp only [Bool.and_eq_true, Bool.not_eq_true'] at h
  obtain ⟨⟨⟨⟨⟨⟨⟨⟨⟨hp, hb⟩, hfr⟩, hv⟩, hbr⟩, histr⟩, hget⟩, hun⟩, hm⟩, hme⟩ := h
  unfold processOne
  rw [if_neg (by simp [hp]), if_neg (by simp [hb, hfr, hv, hbr]),
    if_neg (by simp [histr]), if_neg (by simp [hget]), if_neg (by simp [hun]),
    if_neg (by simp [hm]), if_neg (by simp [hme]), if_neg hc]
  refine ⟨?_, ?_⟩ <;> split_ifs <;> rfl

theorem processList_clones_le (pc : Nat) (h0 : 0 < pc) :
    ∀ (cfgs : List CfgInfo) (d : Nat), d ≤ pc →
      (processList pc d cfgs).2.1 ≤ pc - d := by
  intro cfgs
  induction cfgs with
  | nil =>
    intro d _
    simp [processList]
  | cons c t ih =>
    intro d hd
    simp only [processList]
    by_cases hn : needsClone c = true
    · by_cases hcl : 0 < pc ∧ pc ≤ d
      · rw [processOne_of_needsClone_ceiling pc d c hn hcl]
        simpa using ih d hd
      · obtain ⟨h1, h2⟩ := processOne_of_needsClone_live pc d c hn hcl
        rw [h1, h2]
        have hdlt : d < pc := by omega
        have := ih (d + 1) (by omega)
        simp only [if_pos rfl] at this ⊢
        simp only [if_true]
        omega
    · have hnf : needsClone c = false := by
        revert hn
        cases needsClone c <;> simp
      obtain ⟨h1, h2⟩ := processOne_of_not_needsClone pc d c hnf
      rw [h1, h2]
      simpa using ih d hd

theorem processList_clones_unbounded (cfgs : List CfgInfo) :
    ∀ d, (processList 0 d cfgs).2.1 = cfgs.countP needsClone := by
  induction cfgs with
  | nil =>
    intro d
    simp [processList]
  | cons c t ih =>
    intro d
    simp only [processList, List.countP_cons]
    by_cases hn : needsClone c = true
    · obtain ⟨h1, h2⟩ := processOne_of_needsClone_live 0 d c hn (by omega)
      rw [h1, h2, ih (d + 1)]
      simp [hn]
      omega
    · have hnf : needsClone c = false := by
        revert hn
        cases needsClone c <;> simp
      obtain ⟨h1, h2⟩ := processOne_of_not_needsClone 0 d c hnf
      rw [h1, h2, ih d]
      simp [hnf]

/-- C9: with `pushCeiling > 0`, feeding any sequence of configurations to
the `process` closure performs at most `pushCeiling` clones (hence at most
that many pushes/PR creations); once the guarded `clonesDone` counter has
reached the ceiling, a configuration that would need a clone returns nil
without cloning; a configuration whose in-repo config already matches is
rewritten in place without consuming the ceiling; and `pushCeiling = 0`
imposes no limit — every configuration reaching the clone point clones. -/
theorem C9_push_ceiling (pushCeiling : Nat) (cfgs : List CfgInfo) :
    (0 < pushCeiling → (processList pushCeiling 0 cfgs).2.1 ≤ pushCeiling) ∧
    (∀ d c, 0 < pushCeiling → pushCeiling ≤ d → needsClone c = true →
      processOne pushCeiling d c = { clonesDone := d, cloned := false, res := none }) ∧
    (∀ d c, c.inrepoMatchesExpected = true →
      (processOne pushCeiling d c).clonesDone = d ∧
        (processOne pushCeiling d c).cloned = false) ∧
    ((processList 0 0 cfgs).2.1 = cfgs.countP needsClone) := by
  refine ⟨?_, ?_, ?_, processList_clones_unbounded cfgs 0⟩
  · intro h0
    have := processList_clones_le pushCeiling h0 cfgs 0 (by omega)
    omega
  · intro d c h0 hd hn
    exact processOne_of_needsClone_ceiling pushCeiling d c hn ⟨h0, hd⟩
  · intro d c hm
    refine processOne_of_not_needsClone pushCeiling d c ?_
    unfold needsClone
    rw [hm]
    simp

/-- Witness for C9: ceiling 1 over two clone-needing configurations and one
matching one — one clone happens; at the ceiling a clone-needing
configuration yields nil without cloning; the matching configuration never
consumes the counter; ceiling 0 clones both clone-needing configurations. -/
theorem C9_push_ceiling_witness :
    (processList 1 0 [cClone, cClone, cMatch]).2.1 ≤ 1 ∧
    processOne 1 1 cClone = { clonesDone := 1, cloned := false, res := none } ∧
    ((processOne 1 0 cMatch).clonesDone = 0 ∧ (processOne 1 0 cMatch).cloned = false) ∧
    (processList 0 0 [cClone, cClone, cMatch]).2.1 = 2 := by
  have h := C9_push_ceiling 1 [cClone, cClone, cMatch]
  have h0 := C9_push_ceiling 0 [cClone, cClone, cMatch]
  refine ⟨h.1 (by decide), h.2.1 1 cClone (by decide) (by decide) (by decide),
    h.2.2.1 0 cMatch rfl, ?_⟩
  rw [h0.2.2.2]
  decide

end YamlCreator

namespace GroupCreator

/-- C10: `UpsertGroup` is idempotent with respect to cluster state: with no
existing group of the name it creates and returns (true, nil); with an
existing group whose Users are semantically equal it performs no mutation
(no Delete, no Create) and returns (false, nil); hence a second call with
the same group leaves the state of the first call unchanged and mutates
nothing; only when the existing Users differ does it delete and recreate. -/
theorem C10_upsert_idempotent (g : Group) :
    (UpsertGroup none g =
      { state := some g, mutations := [ClusterOp.create g], created := true,
        err := none }) ∧
    (∀ ex : Group, ex.users = g.users →
      UpsertGroup (some ex) g =
        { state := some ex, mutations := [], created := false, err := none }) ∧
    (∀ st : Option Group,
      (UpsertGroup (UpsertGroup st g).state g).state = (UpsertGroup st g).state ∧
      (UpsertGroup (UpsertGroup st g).state g).mutations = [] ∧
      (UpsertGroup (UpsertGroup st g).state g).err = none) ∧
    (∀ ex : Group, ex.users ≠ g.users →
      UpsertGroup (some ex) g =
        { state := some g,
          mutations := [ClusterOp.delete ex.name, ClusterOp.create g],
          created := false, err := none }) := by
  refine ⟨rfl, ?_, ?_, ?_⟩
  · intro ex hex
    simp only [UpsertGroup]
    rw [if_pos hex.symm]
  · intro st
    cases st with
    | none => simp [UpsertGroup]
    | some ex =>
      by_cases hex : g.users = ex.users
      · simp [UpsertGroup, hex]
      · simp [UpsertGroup, hex]
  · intro ex hex
    simp only [UpsertGroup]
    rw [if_neg (fun h => hex h.symm)]

/-- Witness for C10 at a concrete group: the first call creates, and a
repeat call against the state left by upserting over a differing group
performs no mutation. -/
theorem C10_upsert_idempotent_witness :
    UpsertGroup none gSample =
      { state := some gSample, mutations := [ClusterOp.create gSample], created := true,
        err := none } ∧
    (UpsertGroup (UpsertGroup (some gOther) gSample).state gSample).mutations = [] :=
  ⟨(C10_upsert_idempotent gSample).1,
   ((C10_upsert_idempotent gSample).2.2.1 (some gOther)).2.1⟩

end GroupCreator
